import Mathlib

/-!
Verification of the stack-based regular-expression parser in `src/parse.rs`.

The parser keeps a working stack of `Regexp` values.  The Rust code stores
the stack in a growable vector whose last element is the top; here the stack
is a `List Regexp` whose *head* is the top, so the Rust backward scan from
the end of the vector becomes a forward scan (`takeWhile`/`dropWhile`) from
the head, and the operand lists collected by `concat`/`alternate` are
reversed back into original bottom-to-top (left-to-right) order.
-/

/-- The AST node type of `src/parse.rs` (`enum Regexp`), including the two
stack-sentinel variants `LeftParen` and `VerticalBar`. -/
inductive Regexp where
  | Empty : Regexp
  | Literal : Char → Regexp
  | Concat : List Regexp → Regexp
  | Alternate : List Regexp → Regexp
  | Star : Regexp → Regexp
  | Plus : Regexp → Regexp
  | Quest : Regexp → Regexp
  | Capture : Nat → Regexp → Regexp
  | LeftParen : Nat → Regexp
  | VerticalBar : Regexp
  deriving Repr

/-- The error type of `src/parse.rs` (`enum Error`). -/
inductive Error where
  | MissingParen : Error
  | RepeatArgument : Error
  deriving Repr

/-- `Regexp::is_marker` from `src/parse.rs`. -/
def Regexp.is_marker : Regexp → Bool
  | .LeftParen _ => true
  | .VerticalBar => true
  | _ => false

/-- `Regexp::is_left_paren` from `src/parse.rs`. -/
def Regexp.is_left_paren : Regexp → Bool
  | .LeftParen _ => true
  | _ => false

/-- `Regexp::is_vertical_bar` from `src/parse.rs`. -/
def Regexp.is_vertical_bar : Regexp → Bool
  | .VerticalBar => true
  | _ => false

/-- The parser state of `src/parse.rs` (`struct Parser`): the working stack
(head = top) and the capture-group counter `ncap`. -/
structure Parser where
  stack : List Regexp
  ncap : Nat
  deriving Repr

/-- `Parser::new` from `src/parse.rs`. -/
def Parser.new : Parser := ⟨[], 0⟩

/-- `Parser::concat` from `src/parse.rs`: scan from the top of the stack
while the entry is not a marker, remove the scanned entries, and push
`Empty` (0 entries), the entry itself (1), or `Concat` of the entries in
original order (≥ 2). -/
def Parser.concat (p : Parser) : Parser :=
  let subs := (p.stack.takeWhile (fun r => !r.is_marker)).reverse
  let rest := p.stack.dropWhile (fun r => !r.is_marker)
  let re := match subs with
    | [] => Regexp.Empty
    | [r] => r
    | _ => Regexp.Concat subs
  ⟨re :: rest, p.ncap⟩

/-- `Parser::alternate` from `src/parse.rs`: same backward scan as
`concat`, but 0 collected entries is the Rust `fail` (modelled as `none`)
and ≥ 2 entries wrap into `Alternate`. -/
def Parser.alternate (p : Parser) : Option Parser :=
  let subs := (p.stack.takeWhile (fun r => !r.is_marker)).reverse
  let rest := p.stack.dropWhile (fun r => !r.is_marker)
  match subs with
  | [] => none
  | [r] => some ⟨r :: rest, p.ncap⟩
  | _ => some ⟨Regexp.Alternate subs :: rest, p.ncap⟩

/-- `Parser::swap_vertical_bar` from `src/parse.rs`: if the stack has at
least two entries and the second-from-top is `VerticalBar`, swap the top
two and report `true`; otherwise report `false` with no change. -/
def Parser.swap_vertical_bar (p : Parser) : Bool × Parser :=
  match p.stack with
  | a :: b :: rest =>
    if b.is_vertical_bar then (true, ⟨b :: a :: rest, p.ncap⟩)
    else (false, p)
  | _ => (false, p)

/-- The result of a parser action: success, a recoverable `Error`, or the
Rust `fail` (an internal fatal assertion). -/
inductive Outcome (α : Type) where
  | ok : α → Outcome α
  | err : Error → Outcome α
  | fatal : Outcome α
  deriving Repr

/-- The `concat(); if swap_vertical_bar() { pop(); alternate(); }` sequence
shared by the close-paren case and the end-of-input finalization in
`parse` (`src/parse.rs`). -/
def Parser.collapse (p : Parser) : Option Parser :=
  let q := p.concat
  match q.swap_vertical_bar with
  | (true, q2) => Parser.alternate ⟨q2.stack.tail, q2.ncap⟩
  | (false, q2) => some q2

/-- One iteration of the character loop of `parse` in `src/parse.rs`. -/
def step (p : Parser) (c : Char) : Outcome Parser :=
  if c = '(' then
    .ok ⟨.LeftParen (p.ncap + 1) :: p.stack, p.ncap + 1⟩
  else if c = '|' then
    match p.concat.swap_vertical_bar with
    | (true, q2) => .ok q2
    | (false, q2) => .ok ⟨.VerticalBar :: q2.stack, q2.ncap⟩
  else if c = ')' then
    match p.collapse with
    | none => .fatal
    | some q =>
      match q.stack with
      | sub :: paren :: rest =>
        match paren with
        | .LeftParen cap => .ok ⟨.Capture cap sub :: rest, q.ncap⟩
        | _ => .err .MissingParen
      | _ => .err .MissingParen
  else if c = '*' ∨ c = '+' ∨ c = '?' then
    match p.stack with
    | [] => .err .RepeatArgument
    | sub :: rest =>
      if sub.is_marker then .err .RepeatArgument
      else
        let re := if c = '*' then Regexp.Star sub
                  else if c = '+' then Regexp.Plus sub
                  else Regexp.Quest sub
        .ok ⟨re :: rest, p.ncap⟩
  else
    .ok ⟨.Literal c :: p.stack, p.ncap⟩

/-- The character loop of `parse` in `src/parse.rs`, consuming the pattern
left to right. -/
def runLoop (p : Parser) : List Char → Outcome Parser
  | [] => .ok p
  | c :: cs =>
    match step p c with
    | .ok q => runLoop q cs
    | .err e => .err e
    | .fatal => .fatal

/-- The end-of-input finalization of `parse` in `src/parse.rs`: collapse
the pending concatenation/alternation, then require a stack of exactly one
entry and return it. -/
def finalize (p : Parser) : Outcome Regexp :=
  match p.collapse with
  | none => .fatal
  | some q =>
    match q.stack with
    | [re] => .ok re
    | _ => .err .MissingParen

/-- `parse` from `src/parse.rs` on an explicit character list. -/
def parseChars (cs : List Char) : Outcome Regexp :=
  match runLoop Parser.new cs with
  | .ok p => finalize p
  | .err e => .err e
  | .fatal => .fatal

/-- `parse` from `src/parse.rs` on a pattern string. -/
def parse (s : String) : Outcome Regexp :=
  parseChars s.data

/-- The six characters with special meaning to the parse driver; every
other character becomes a `Literal`. -/
def special (c : Char) : Bool :=
  c == '(' || c == ')' || c == '|' || c == '*' || c == '+' || c == '?'

/-- The pattern text `|e1|e2...` joining further alternation branches. -/
def barsText : List Char → List Char
  | [] => []
  | e :: cs => '|' :: e :: barsText cs

/-- Whether an outcome is not the internal fatal assertion (the Rust
`fail`). -/
def Outcome.notFatal : Outcome α → Bool
  | .fatal => false
  | _ => true

mutual

/-- Well-formedness of a returned AST: every `Concat` and `Alternate` node
has at least 2 children. -/
def Regexp.wf : Regexp → Bool
  | .Empty => true
  | .Literal _ => true
  | .Concat subs => decide (2 ≤ subs.length) && wfList subs
  | .Alternate subs => decide (2 ≤ subs.length) && wfList subs
  | .Star r => r.wf
  | .Plus r => r.wf
  | .Quest r => r.wf
  | .Capture _ r => r.wf
  | .LeftParen _ => true
  | .VerticalBar => true

/-- `Regexp.wf` on every element of a list. -/
def wfList : List Regexp → Bool
  | [] => true
  | r :: rs => r.wf && wfList rs

end

mutual

/-- No stack-sentinel variant (`LeftParen`, `VerticalBar`) occurs anywhere
in the tree. -/
def Regexp.sentinelFree : Regexp → Bool
  | .Empty => true
  | .Literal _ => true
  | .Concat subs => sfList subs
  | .Alternate subs => sfList subs
  | .Star r => r.sentinelFree
  | .Plus r => r.sentinelFree
  | .Quest r => r.sentinelFree
  | .Capture _ r => r.sentinelFree
  | .LeftParen _ => false
  | .VerticalBar => false

/-- `Regexp.sentinelFree` on every element of a list. -/
def sfList : List Regexp → Bool
  | [] => true
  | r :: rs => r.sentinelFree && sfList rs

end

mutual

/-- Every capture index occurring in the tree (also on a transient
`LeftParen`) is positive. -/
def Regexp.capsPos : Regexp → Bool
  | .Empty => true
  | .Literal _ => true
  | .Concat subs => cpList subs
  | .Alternate subs => cpList subs
  | .Star r => r.capsPos
  | .Plus r => r.capsPos
  | .Quest r => r.capsPos
  | .Capture i r => decide (1 ≤ i) && r.capsPos
  | .LeftParen i => decide (1 ≤ i)
  | .VerticalBar => true

/-- `Regexp.capsPos` on every element of a list. -/
def cpList : List Regexp → Bool
  | [] => true
  | r :: rs => r.capsPos && cpList rs

end

example : parse "" = .ok .Empty := rfl
example : parse "a" = .ok (.Literal 'a') := rfl
example : parse "ab" = .ok (.Concat [.Literal 'a', .Literal 'b']) := rfl
example : parse "a|b" = .ok (.Alternate [.Literal 'a', .Literal 'b']) := rfl
example : parse "a|b|c" =
    .ok (.Alternate [.Literal 'a', .Literal 'b', .Literal 'c']) := rfl
example : parse "a*" = .ok (.Star (.Literal 'a')) := rfl
example : parse "a+" = .ok (.Plus (.Literal 'a')) := rfl
example : parse "a?" = .ok (.Quest (.Literal 'a')) := rfl
example : parse "(a)" = .ok (.Capture 1 (.Literal 'a')) := rfl
example : parse "((a)(b))" =
    .ok (.Capture 1 (.Concat [.Capture 2 (.Literal 'a'),
      .Capture 3 (.Literal 'b')])) := rfl
example : parse "(a|b)c" =
    .ok (.Concat [.Capture 1 (.Alternate [.Literal 'a', .Literal 'b']),
      .Literal 'c']) := rfl
example : parse "a**" = .ok (.Star (.Star (.Literal 'a'))) := rfl
example : parse "(" = .err .MissingParen := rfl
example : parse ")" = .err .MissingParen := rfl
example : parse "*" = .err .RepeatArgument := rfl
example : parse "|*" = .err .RepeatArgument := rfl
example : parse "(|)" = .ok (.Capture 1 (.Alternate [.Empty, .Empty])) := rfl
example : parse "||" = .ok (.Alternate [.Empty, .Empty, .Empty]) := rfl

/-- Elements collected by the backward scan of `concat`/`alternate` are
non-markers. -/
theorem mem_collected_not_marker (st : List Regexp) (r : Regexp)
    (h : r ∈ (st.takeWhile (fun x => !x.is_marker)).reverse) :
    r.is_marker = false := by
  have := List.mem_takeWhile_imp (List.mem_reverse.mp h)
  simpa using this

/-- Elements collected by the backward scan come from the stack. -/
theorem mem_collected_mem (st : List Regexp) (r : Regexp)
    (h : r ∈ (st.takeWhile (fun x => !x.is_marker)).reverse) : r ∈ st :=
  (List.takeWhile_sublist _).subset (List.mem_reverse.mp h)

/-- Elements left by the backward scan come from the stack. -/
theorem mem_dropped_mem (st : List Regexp) (r : Regexp)
    (h : r ∈ st.dropWhile (fun x => !x.is_marker)) : r ∈ st :=
  (List.dropWhile_sublist _).subset h

/-- A list that is neither empty nor a singleton has length at least 2. -/
theorem two_le_length_of_not_small (l : List Regexp) (h0 : l ≠ [])
    (h1 : ∀ r, l ≠ [r]) : 2 ≤ l.length := by
  match l with
  | [] => exact absurd rfl h0
  | [r] => exact absurd rfl (h1 r)
  | a :: b :: t => simp [List.length_cons]

/-- `concat` keeps the capture counter unchanged. -/
theorem Parser.concat_ncap (p : Parser) : p.concat.ncap = p.ncap := rfl

/-- The stack after `concat` has a non-marker on top, above the entries
the backward scan did not collect. -/
theorem Parser.concat_top (p : Parser) :
    ∃ re, p.concat.stack =
        re :: p.stack.dropWhile (fun x => !x.is_marker) ∧
      re.is_marker = false := by
  simp only [Parser.concat]
  split
  · exact ⟨_, rfl, rfl⟩
  next r heq =>
    refine ⟨r, rfl, ?_⟩
    exact mem_collected_not_marker p.stack r (by rw [heq]; simp)
  · exact ⟨_, rfl, rfl⟩

/-- `swap_vertical_bar` keeps the capture counter unchanged. -/
theorem Parser.swap_snd_ncap (p : Parser) :
    (p.swap_vertical_bar).2.ncap = p.ncap := by
  unfold Parser.swap_vertical_bar
  split
  · split <;> rfl
  · rfl

/-- `swap_vertical_bar` only permutes the stack: membership is
preserved. -/
theorem Parser.swap_stack_mem (p : Parser) (r : Regexp)
    (h : r ∈ (p.swap_vertical_bar).2.stack) : r ∈ p.stack := by
  unfold Parser.swap_vertical_bar at h
  split at h
  next a b rest heq =>
    split at h
    · rw [heq]
      simp only [List.mem_cons] at h ⊢
      tauto
    · exact h
  · exact h

/-- `alternate` keeps the capture counter unchanged. -/
theorem Parser.alternate_ncap (p : Parser) (q : Parser)
    (h : p.alternate = some q) : q.ncap = p.ncap := by
  simp only [Parser.alternate] at h
  split at h
  · cases h
  · cases h; rfl
  · cases h; rfl

/-- If the top of the stack is a non-marker, `alternate` succeeds and
again leaves a non-marker on top. -/
theorem Parser.alternate_some (p : Parser) (re : Regexp)
    (rest : List Regexp) (hst : p.stack = re :: rest)
    (hre : re.is_marker = false) :
    ∃ q re2 rest2, p.alternate = some q ∧ q.stack = re2 :: rest2 ∧
      re2.is_marker = false := by
  have hsubs : (p.stack.takeWhile (fun x => !x.is_marker)).reverse ≠ [] := by
    rw [hst]
    simp [List.takeWhile_cons, hre]
  simp only [Parser.alternate]
  split
  next heq => exact absurd heq hsubs
  next r heq =>
    refine ⟨_, r, _, rfl, rfl, ?_⟩
    exact mem_collected_not_marker p.stack r (by rw [heq]; simp)
  next => exact ⟨_, _, _, rfl, rfl, rfl⟩

/-- The shared close/finalize collapse always succeeds (so the Rust `fail`
inside `alternate` is unreachable from the driver) and leaves a non-marker
on top of the stack. -/
theorem Parser.collapse_some (p : Parser) :
    ∃ q re rest, p.collapse = some q ∧ q.stack = re :: rest ∧
      re.is_marker = false := by
  obtain ⟨re, hstk, hre⟩ := Parser.concat_top p
  simp only [Parser.collapse]
  cases hrest : p.stack.dropWhile (fun x => !x.is_marker) with
  | nil =>
    rw [hrest] at hstk
    have hsw : p.concat.swap_vertical_bar = (false, p.concat) := by
      unfold Parser.swap_vertical_bar
      rw [hstk]
    rw [hsw]
    exact ⟨_, re, _, rfl, hstk, hre⟩
  | cons b rest2 =>
    rw [hrest] at hstk
    by_cases hb : b.is_vertical_bar = true
    · have hsw : p.concat.swap_vertical_bar =
          (true, ⟨b :: re :: rest2, p.concat.ncap⟩) := by
        unfold Parser.swap_vertical_bar
        rw [hstk]
        simp [hb]
      rw [hsw]
      obtain ⟨q, re2, rest3, ha, hq, hre2⟩ :=
        Parser.alternate_some ⟨re :: rest2, p.concat.ncap⟩ re rest2 rfl hre
      exact ⟨q, re2, rest3, ha, hq, hre2⟩
    · have hsw : p.concat.swap_vertical_bar = (false, p.concat) := by
        unfold Parser.swap_vertical_bar
        rw [hstk]
        simp [hb]
      rw [hsw]
      exact ⟨_, re, _, rfl, hstk, hre⟩

/-- The shared collapse keeps the capture counter unchanged. -/
theorem Parser.collapse_ncap (p : Parser) (q : Parser)
    (h : p.collapse = some q) : q.ncap = p.ncap := by
  simp only [Parser.collapse] at h
  split at h
  next q2 heq =>
    have h2 := Parser.alternate_ncap _ _ h
    have h3 : q2.ncap = (p.concat.swap_vertical_bar).2.ncap := by rw [heq]
    rw [h2]
    simp only []
    rw [h3, Parser.swap_snd_ncap, Parser.concat_ncap]
  next q2 heq =>
    cases h
    have h3 : q.ncap = (p.concat.swap_vertical_bar).2.ncap := by rw [heq]
    rw [h3, Parser.swap_snd_ncap, Parser.concat_ncap]

/-- `concat` preserves any stack predicate closed under `Empty` and under
`Concat` of at least two non-marker entries. -/
theorem Parser.concat_pres (P : Regexp → Bool)
    (hemp : P .Empty = true)
    (hcat : ∀ subs, 2 ≤ subs.length →
      (∀ r ∈ subs, r.is_marker = false ∧ P r = true) →
      P (.Concat subs) = true)
    (p : Parser) (hp : ∀ r ∈ p.stack, P r = true) :
    ∀ r ∈ p.concat.stack, P r = true := by
  have hmem : ∀ r ∈ (p.stack.takeWhile (fun x => !x.is_marker)).reverse,
      r.is_marker = false ∧ P r = true := fun r hr =>
    ⟨mem_collected_not_marker p.stack r hr, hp r (mem_collected_mem p.stack r hr)⟩
  simp only [Parser.concat]
  intro r hr
  rcases List.mem_cons.mp hr with hhd | htl
  · subst hhd
    split
    · exact hemp
    next r1 heq => exact (hmem r1 (by rw [heq]; simp)).2
    next h0 h1 =>
      exact hcat _ (two_le_length_of_not_small _ (by simpa using h0)
        (by simpa using h1)) hmem
  · exact hp r (mem_dropped_mem p.stack r htl)

/-- `alternate` preserves any stack predicate closed under `Alternate` of
at least two non-marker entries. -/
theorem Parser.alternate_pres (P : Regexp → Bool)
    (halt : ∀ subs, 2 ≤ subs.length →
      (∀ r ∈ subs, r.is_marker = false ∧ P r = true) →
      P (.Alternate subs) = true)
    (p : Parser) (q : Parser) (hp : ∀ r ∈ p.stack, P r = true)
    (h : p.alternate = some q) :
    ∀ r ∈ q.stack, P r = true := by
  have hmem : ∀ r ∈ (p.stack.takeWhile (fun x => !x.is_marker)).reverse,
      r.is_marker = false ∧ P r = true := fun r hr =>
    ⟨mem_collected_not_marker p.stack r hr, hp r (mem_collected_mem p.stack r hr)⟩
  have hrest : ∀ r ∈ p.stack.dropWhile (fun x => !x.is_marker), P r = true :=
    fun r hr => hp r (mem_dropped_mem p.stack r hr)
  simp only [Parser.alternate] at h
  cases hsubs : (p.stack.takeWhile (fun r => !r.is_marker)).reverse with
  | nil => rw [hsubs] at h; cases h
  | cons a t =>
    cases t with
    | nil =>
      rw [hsubs] at h
      cases h
      intro x hx
      rcases List.mem_cons.mp hx with hhd | htl
      · subst hhd
        exact (hmem _ (by rw [hsubs]; exact List.mem_singleton.mpr rfl)).2
      · exact hrest x htl
    | cons b t2 =>
      rw [hsubs] at h
      cases h
      intro x hx
      rcases List.mem_cons.mp hx with hhd | htl
      · subst hhd
        refine halt _ (by simp [List.length_cons]) ?_
        rw [← hsubs]
        exact hmem
      · exact hrest x htl

/-- The shared collapse preserves any stack predicate closed under
`Empty`, `Concat`, and `Alternate` of non-marker entries. -/
theorem Parser.collapse_pres (P : Regexp → Bool)
    (hemp : P .Empty = true)
    (hcat : ∀ subs, 2 ≤ subs.length →
      (∀ r ∈ subs, r.is_marker = false ∧ P r = true) →
      P (.Concat subs) = true)
    (halt : ∀ subs, 2 ≤ subs.length →
      (∀ r ∈ subs, r.is_marker = false ∧ P r = true) →
      P (.Alternate subs) = true)
    (p : Parser) (q : Parser) (hp : ∀ r ∈ p.stack, P r = true)
    (h : p.collapse = some q) :
    ∀ r ∈ q.stack, P r = true := by
  have h1 := Parser.concat_pres P hemp hcat p hp
  simp only [Parser.collapse] at h
  split at h
  next q2 heq =>
    have hq2 : ∀ r ∈ q2.stack, P r = true := by
      intro r hr
      refine h1 r (Parser.swap_stack_mem p.concat r ?_)
      rw [heq]
      exact hr
    refine Parser.alternate_pres P halt _ q ?_ h
    intro r hr
    exact hq2 r (List.mem_of_mem_tail hr)
  next q2 heq =>
    cases h
    intro r hr
    refine h1 r (Parser.swap_stack_mem p.concat r ?_)
    rw [heq]
    exact hr


/-- Evaluation of `step` on an opening parenthesis. -/
theorem step_open (p : Parser) :
    step p '(' = .ok ⟨.LeftParen (p.ncap + 1) :: p.stack, p.ncap + 1⟩ := rfl

/-- Evaluation of `step` on a vertical bar. -/
theorem step_bar_eq (p : Parser) :
    step p '|' = (match p.concat.swap_vertical_bar with
      | (true, q2) => .ok q2
      | (false, q2) => .ok ⟨.VerticalBar :: q2.stack, q2.ncap⟩) := rfl

/-- Evaluation of `step` on a closing parenthesis. -/
theorem step_close_eq (p : Parser) :
    step p ')' = (match p.collapse with
      | none => .fatal
      | some q =>
        match q.stack with
        | sub :: paren :: rest =>
          match paren with
          | .LeftParen cap => .ok ⟨.Capture cap sub :: rest, q.ncap⟩
          | _ => .err .MissingParen
        | _ => .err .MissingParen) := rfl

/-- Evaluation of `step` on a repeat operator. -/
theorem step_repeat_eq (p : Parser) (c : Char)
    (hc : c = '*' ∨ c = '+' ∨ c = '?') :
    step p c = (match p.stack with
      | [] => .err .RepeatArgument
      | sub :: rest =>
        if sub.is_marker then .err .RepeatArgument
        else .ok ⟨(if c = '*' then Regexp.Star sub
                   else if c = '+' then Regexp.Plus sub
                   else Regexp.Quest sub) :: rest, p.ncap⟩) := by
  rcases hc with h | h | h <;> subst h <;> rfl

/-- Evaluation of `step` on a non-special character: push a `Literal`. -/
theorem step_literal (p : Parser) (c : Char) (h : special c = false) :
    step p c = .ok ⟨.Literal c :: p.stack, p.ncap⟩ := by
  simp only [special, Bool.or_eq_false_iff, beq_eq_false_iff_ne, ne_eq] at h
  obtain ⟨⟨⟨⟨⟨h1, h2⟩, h3⟩, h4⟩, h5⟩, h6⟩ := h
  unfold step
  rw [if_neg h1, if_neg h3, if_neg h2, if_neg (by tauto)]

/-- `step` outcomes are never the internal fatal assertion. -/
theorem step_not_fatal (p : Parser) (c : Char)
    (h : step p c = .fatal) : False := by
  by_cases hc1 : c = '('
  · subst hc1; rw [step_open] at h; cases h
  by_cases hc2 : c = '|'
  · subst hc2
    rw [step_bar_eq] at h
    rcases hsw : p.concat.swap_vertical_bar with ⟨b, q2⟩
    rw [hsw] at h
    cases b <;> cases h
  by_cases hc3 : c = ')'
  · subst hc3
    obtain ⟨q, re, rest, hcol, hq, hre⟩ := Parser.collapse_some p
    have hs : step p ')' = (match q.stack with
        | sub :: paren :: rest2 =>
          match paren with
          | Regexp.LeftParen cap =>
            Outcome.ok ⟨Regexp.Capture cap sub :: rest2, q.ncap⟩
          | _ => Outcome.err Error.MissingParen
        | _ => Outcome.err Error.MissingParen) := by
      rw [step_close_eq, hcol]
    rw [hq] at hs
    rw [hs] at h
    cases rest with
    | nil => cases h
    | cons paren rest2 => cases paren <;> cases h
  by_cases hc4 : c = '*' ∨ c = '+' ∨ c = '?'
  · cases hst : p.stack with
    | nil =>
      have hs : step p c = .err .RepeatArgument := by
        rw [step_repeat_eq p c hc4, hst]
      rw [hs] at h; cases h
    | cons sub rest =>
      have hs : step p c = (if sub.is_marker then Outcome.err .RepeatArgument
          else Outcome.ok ⟨(if c = '*' then Regexp.Star sub
                            else if c = '+' then Regexp.Plus sub
                            else Regexp.Quest sub) :: rest, p.ncap⟩) := by
        rw [step_repeat_eq p c hc4, hst]
      rw [hs] at h
      by_cases hm : sub.is_marker = true
      · rw [if_pos hm] at h; cases h
      · rw [if_neg hm] at h; cases h
  · have hs : step p c = .ok ⟨.Literal c :: p.stack, p.ncap⟩ := by
      apply step_literal
      simp only [special, Bool.or_eq_false_iff, beq_eq_false_iff_ne, ne_eq]
      tauto
    rw [hs] at h; cases h

/-- The character loop never reaches the internal fatal assertion. -/
theorem runLoop_not_fatal (cs : List Char) :
    ∀ p, runLoop p cs = .fatal → False := by
  induction cs with
  | nil => intro p h; cases h
  | cons c cs ih =>
    intro p h
    unfold runLoop at h
    cases hs : step p c with
    | ok q => rw [hs] at h; exact ih q h
    | err e => rw [hs] at h; cases h
    | fatal => exact step_not_fatal p c hs

/-- `step` changes the capture counter exactly on an opening parenthesis,
by one. -/
theorem step_ncap (p : Parser) (c : Char) (q : Parser)
    (h : step p c = .ok q) :
    q.ncap = p.ncap + (if c = '(' then 1 else 0) := by
  by_cases hc1 : c = '('
  · subst hc1
    rw [step_open] at h
    cases h
    simp
  rw [if_neg hc1]
  by_cases hc2 : c = '|'
  · subst hc2
    rw [step_bar_eq] at h
    rcases hsw : p.concat.swap_vertical_bar with ⟨b, q2⟩
    rw [hsw] at h
    have h2 : q2.ncap = p.ncap := by
      have h3 : q2 = (p.concat.swap_vertical_bar).2 := by rw [hsw]
      rw [h3, Parser.swap_snd_ncap, Parser.concat_ncap]
    cases b
    · cases h
      show q2.ncap = p.ncap + 0
      rw [h2]
      rfl
    · cases h
      rw [h2]
      rfl
  by_cases hc3 : c = ')'
  · subst hc3
    obtain ⟨q1, re, rest, hcol, hq1, hre⟩ := Parser.collapse_some p
    have hs : step p ')' = (match q1.stack with
        | sub :: paren :: rest2 =>
          match paren with
          | Regexp.LeftParen cap =>
            Outcome.ok ⟨Regexp.Capture cap sub :: rest2, q1.ncap⟩
          | _ => Outcome.err Error.MissingParen
        | _ => Outcome.err Error.MissingParen) := by
      rw [step_close_eq, hcol]
    rw [hq1] at hs
    rw [hs] at h
    have h2 : q1.ncap = p.ncap := Parser.collapse_ncap p q1 hcol
    cases rest with
    | nil => cases h
    | cons paren rest2 =>
      cases paren <;> cases h
      show q1.ncap = p.ncap + 0
      rw [h2]
      rfl
  by_cases hc4 : c = '*' ∨ c = '+' ∨ c = '?'
  · cases hst : p.stack with
    | nil =>
      have hs : step p c = .err .RepeatArgument := by
        rw [step_repeat_eq p c hc4, hst]
      rw [hs] at h; cases h
    | cons sub rest =>
      have hs : step p c = (if sub.is_marker then Outcome.err .RepeatArgument
          else Outcome.ok ⟨(if c = '*' then Regexp.Star sub
                            else if c = '+' then Regexp.Plus sub
                            else Regexp.Quest sub) :: rest, p.ncap⟩) := by
        rw [step_repeat_eq p c hc4, hst]
      rw [hs] at h
      by_cases hm : sub.is_marker = true
      · rw [if_pos hm] at h; cases h
      · rw [if_neg hm] at h
        cases h
        show p.ncap = p.ncap + 0
        rfl
  · have hs : step p c = .ok ⟨.Literal c :: p.stack, p.ncap⟩ := by
      apply step_literal
      simp only [special, Bool.or_eq_false_iff, beq_eq_false_iff_ne, ne_eq]
      tauto
    rw [hs] at h
    cases h
    show p.ncap = p.ncap + 0
    rfl

/-- Over a whole run of the loop, the capture counter advances by the
number of opening parentheses consumed. -/
theorem runLoop_ncap (cs : List Char) :
    ∀ p q, runLoop p cs = .ok q → q.ncap = p.ncap + cs.count '(' := by
  induction cs with
  | nil =>
    intro p q h
    cases h
    simp
  | cons c cs ih =>
    intro p q h
    unfold runLoop at h
    cases hs : step p c with
    | ok p1 =>
      rw [hs] at h
      have h1 := ih p1 q h
      have h2 := step_ncap p c p1 hs
      rw [h1, h2, List.count_cons]
      by_cases hc : c = '('
      · simp [hc]
        omega
      · simp [hc]
    | err e => rw [hs] at h; cases h
    | fatal => rw [hs] at h; cases h

/-- One `step` preserves any stack predicate closed under the node
constructors the driver can build. -/
theorem step_pres (P : Regexp → Bool)
    (hemp : P .Empty = true)
    (hlit : ∀ c, P (.Literal c) = true)
    (hcat : ∀ subs, 2 ≤ subs.length →
      (∀ r ∈ subs, r.is_marker = false ∧ P r = true) →
      P (.Concat subs) = true)
    (halt : ∀ subs, 2 ≤ subs.length →
      (∀ r ∈ subs, r.is_marker = false ∧ P r = true) →
      P (.Alternate subs) = true)
    (hstar : ∀ r, r.is_marker = false → P r = true → P (.Star r) = true)
    (hplus : ∀ r, r.is_marker = false → P r = true → P (.Plus r) = true)
    (hquest : ∀ r, r.is_marker = false → P r = true → P (.Quest r) = true)
    (hcap : ∀ i r, r.is_marker = false → P (.LeftParen i) = true →
      P r = true → P (.Capture i r) = true)
    (hlparen : ∀ i, 1 ≤ i → P (.LeftParen i) = true)
    (hvbar : P .VerticalBar = true)
    (p : Parser) (c : Char) (q : Parser)
    (h : step p c = .ok q) (hp : ∀ r ∈ p.stack, P r = true) :
    ∀ r ∈ q.stack, P r = true := by
  by_cases hc1 : c = '('
  · subst hc1
    rw [step_open] at h
    cases h
    intro r hr
    rcases List.mem_cons.mp hr with hhd | htl
    · subst hhd; exact hlparen _ (Nat.succ_le_succ (Nat.zero_le _))
    · exact hp r htl
  by_cases hc2 : c = '|'
  · subst hc2
    rw [step_bar_eq] at h
    rcases hsw : p.concat.swap_vertical_bar with ⟨b, q2⟩
    rw [hsw] at h
    have hq2 : ∀ r ∈ q2.stack, P r = true := by
      intro r hr
      refine Parser.concat_pres P hemp hcat p hp r
        (Parser.swap_stack_mem p.concat r ?_)
      have h3 : (p.concat.swap_vertical_bar).2 = q2 := by rw [hsw]
      rw [h3]
      exact hr
    cases b
    · cases h
      intro r hr
      rcases List.mem_cons.mp hr with hhd | htl
      · subst hhd; exact hvbar
      · exact hq2 r htl
    · cases h
      exact hq2
  by_cases hc3 : c = ')'
  · subst hc3
    obtain ⟨q1, re, rest, hcol, hq1, hre⟩ := Parser.collapse_some p
    have hall : ∀ r ∈ q1.stack, P r = true :=
      Parser.collapse_pres P hemp hcat halt p q1 hp hcol
    have hs : step p ')' = (match q1.stack with
        | sub :: paren :: rest2 =>
          match paren with
          | Regexp.LeftParen cap =>
            Outcome.ok ⟨Regexp.Capture cap sub :: rest2, q1.ncap⟩
          | _ => Outcome.err Error.MissingParen
        | _ => Outcome.err Error.MissingParen) := by
      rw [step_close_eq, hcol]
    rw [hq1] at hs
    rw [hs] at h
    cases rest with
    | nil => cases h
    | cons paren rest2 =>
      have hre2 : P re = true := hall re (by rw [hq1]; simp)
      have hparen : P paren = true := hall paren (by rw [hq1]; simp)
      have hrest2 : ∀ r ∈ rest2, P r = true := by
        intro r hr
        exact hall r (by rw [hq1]; simp [hr])
      cases paren <;> cases h
      intro r hr
      rcases List.mem_cons.mp hr with hhd | htl
      · subst hhd
        exact hcap _ re hre hparen hre2
      · exact hrest2 r htl
  by_cases hc4 : c = '*' ∨ c = '+' ∨ c = '?'
  · cases hst : p.stack with
    | nil =>
      have hs : step p c = .err .RepeatArgument := by
        rw [step_repeat_eq p c hc4, hst]
      rw [hs] at h; cases h
    | cons sub rest =>
      have hs : step p c = (if sub.is_marker then Outcome.err .RepeatArgument
          else Outcome.ok ⟨(if c = '*' then Regexp.Star sub
                            else if c = '+' then Regexp.Plus sub
                            else Regexp.Quest sub) :: rest, p.ncap⟩) := by
        rw [step_repeat_eq p c hc4, hst]
      rw [hs] at h
      have hsub : P sub = true := hp sub (by rw [hst]; simp)
      have hrest : ∀ r ∈ rest, P r = true := by
        intro r hr
        exact hp r (by rw [hst]; simp [hr])
      by_cases hm : sub.is_marker = true
      · rw [if_pos hm] at h; cases h
      · rw [if_neg hm] at h
        cases h
        intro r hr
        rcases List.mem_cons.mp hr with hhd | htl
        · subst hhd
          have hm2 : sub.is_marker = false := by
            cases hb : sub.is_marker
            · rfl
            · exact absurd hb hm
          by_cases hs1 : c = '*'
          · rw [if_pos hs1]; exact hstar sub hm2 hsub
          rw [if_neg hs1]
          by_cases hs2 : c = '+'
          · rw [if_pos hs2]; exact hplus sub hm2 hsub
          · rw [if_neg hs2]; exact hquest sub hm2 hsub
        · exact hrest r htl
  · have hs : step p c = .ok ⟨.Literal c :: p.stack, p.ncap⟩ := by
      apply step_literal
      simp only [special, Bool.or_eq_false_iff, beq_eq_false_iff_ne, ne_eq]
      tauto
    rw [hs] at h
    cases h
    intro r hr
    rcases List.mem_cons.mp hr with hhd | htl
    · subst hhd; exact hlit c
    · exact hp r htl

/-- The character loop preserves any stack predicate closed under the
node constructors the driver can build. -/
theorem runLoop_pres (P : Regexp → Bool)
    (hemp : P .Empty = true)
    (hlit : ∀ c, P (.Literal c) = true)
    (hcat : ∀ subs, 2 ≤ subs.length →
      (∀ r ∈ subs, r.is_marker = false ∧ P r = true) →
      P (.Concat subs) = true)
    (halt : ∀ subs, 2 ≤ subs.length →
      (∀ r ∈ subs, r.is_marker = false ∧ P r = true) →
      P (.Alternate subs) = true)
    (hstar : ∀ r, r.is_marker = false → P r = true → P (.Star r) = true)
    (hplus : ∀ r, r.is_marker = false → P r = true → P (.Plus r) = true)
    (hquest : ∀ r, r.is_marker = false → P r = true → P (.Quest r) = true)
    (hcap : ∀ i r, r.is_marker = false → P (.LeftParen i) = true →
      P r = true → P (.Capture i r) = true)
    (hlparen : ∀ i, 1 ≤ i → P (.LeftParen i) = true)
    (hvbar : P .VerticalBar = true)
    (cs : List Char) :
    ∀ p q, runLoop p cs = .ok q → (∀ r ∈ p.stack, P r = true) →
      ∀ r ∈ q.stack, P r = true := by
  induction cs with
  | nil =>
    intro p q h hp
    cases h
    exact hp
  | cons c cs ih =>
    intro p q h hp
    unfold runLoop at h
    cases hs : step p c with
    | ok p1 =>
      rw [hs] at h
      exact ih p1 q h (step_pres P hemp hlit hcat halt hstar hplus hquest
        hcap hlparen hvbar p c p1 hs hp)
    | err e => rw [hs] at h; cases h
    | fatal => rw [hs] at h; cases h

/-- A successful `parse` returns a non-marker node satisfying any
predicate closed under the node constructors the driver can build. -/
theorem parse_pred (P : Regexp → Bool)
    (hemp : P .Empty = true)
    (hlit : ∀ c, P (.Literal c) = true)
    (hcat : ∀ subs, 2 ≤ subs.length →
      (∀ r ∈ subs, r.is_marker = false ∧ P r = true) →
      P (.Concat subs) = true)
    (halt : ∀ subs, 2 ≤ subs.length →
      (∀ r ∈ subs, r.is_marker = false ∧ P r = true) →
      P (.Alternate subs) = true)
    (hstar : ∀ r, r.is_marker = false → P r = true → P (.Star r) = true)
    (hplus : ∀ r, r.is_marker = false → P r = true → P (.Plus r) = true)
    (hquest : ∀ r, r.is_marker = false → P r = true → P (.Quest r) = true)
    (hcap : ∀ i r, r.is_marker = false → P (.LeftParen i) = true →
      P r = true → P (.Capture i r) = true)
    (hlparen : ∀ i, 1 ≤ i → P (.LeftParen i) = true)
    (hvbar : P .VerticalBar = true)
    (cs : List Char) (r : Regexp) (h : parseChars cs = .ok r) :
    P r = true ∧ r.is_marker = false := by
  unfold parseChars at h
  cases hl : runLoop Parser.new cs with
  | ok p =>
    rw [hl] at h
    replace h : finalize p = Outcome.ok r := h
    have hstack : ∀ x ∈ p.stack, P x = true := by
      refine runLoop_pres P hemp hlit hcat halt hstar hplus hquest
        hcap hlparen hvbar cs Parser.new p hl ?_
      intro x hx
      cases hx
    obtain ⟨q, re, rest, hcol, hq, hre⟩ := Parser.collapse_some p
    have hqall : ∀ x ∈ q.stack, P x = true :=
      Parser.collapse_pres P hemp hcat halt p q hstack hcol
    have hfin : finalize p = (match q.stack with
        | [re] => Outcome.ok re
        | _ => Outcome.err Error.MissingParen) := by
      unfold finalize
      rw [hcol]
    rw [hq] at hfin
    cases rest with
    | nil =>
      rw [hfin] at h
      cases h
      exact ⟨hqall _ (by rw [hq]; simp), hre⟩
    | cons b rest2 =>
      rw [hfin] at h
      cases h
  | err e => rw [hl] at h; cases h
  | fatal => rw [hl] at h; cases h

/-- `wfList` is `wf` of every element. -/
theorem wfList_iff (l : List Regexp) :
    wfList l = true ↔ ∀ r ∈ l, r.wf = true := by
  induction l with
  | nil => simp [wfList]
  | cons r rs ih => simp [wfList, ih]

/-- `sfList` is `sentinelFree` of every element. -/
theorem sfList_iff (l : List Regexp) :
    sfList l = true ↔ ∀ r ∈ l, r.sentinelFree = true := by
  induction l with
  | nil => simp [sfList]
  | cons r rs ih => simp [sfList, ih]

/-- `cpList` is `capsPos` of every element. -/
theorem cpList_iff (l : List Regexp) :
    cpList l = true ↔ ∀ r ∈ l, r.capsPos = true := by
  induction l with
  | nil => simp [cpList]
  | cons r rs ih => simp [cpList, ih]

/-- C5: on every input on which `parse` succeeds, the returned AST
contains no `Concat` and no `Alternate` node with fewer than 2 children:
collapsing one operand yields the operand itself, and collapsing zero
operands in `concat` yields `Empty`, so no small wrapper is ever built. -/
theorem parse_no_small_concat_alternate (cs : List Char) (r : Regexp)
    (h : parseChars cs = .ok r) : r.wf = true := by
  refine (parse_pred Regexp.wf (by simp [Regexp.wf]) (fun c => by simp [Regexp.wf])
    ?_ ?_ ?_ ?_ ?_ ?_ (fun i _ => by simp [Regexp.wf]) (by simp [Regexp.wf])
    cs r h).1
  · intro subs hlen hmem
    simp only [Regexp.wf, Bool.and_eq_true, decide_eq_true_eq]
    exact ⟨hlen, (wfList_iff subs).mpr fun x hx => (hmem x hx).2⟩
  · intro subs hlen hmem
    simp only [Regexp.wf, Bool.and_eq_true, decide_eq_true_eq]
    exact ⟨hlen, (wfList_iff subs).mpr fun x hx => (hmem x hx).2⟩
  · intro x _ hx; simpa [Regexp.wf] using hx
  · intro x _ hx; simpa [Regexp.wf] using hx
  · intro x _ hx; simpa [Regexp.wf] using hx
  · intro i x _ _ hx; simpa [Regexp.wf] using hx

/-- Witness for C5 at the concrete input "ab". -/
theorem parse_no_small_concat_alternate_witness :
    (Regexp.Concat [.Literal 'a', .Literal 'b']).wf = true :=
  parse_no_small_concat_alternate (String.data "ab")
    (Regexp.Concat [.Literal 'a', .Literal 'b']) rfl

/-- C6: on every input on which `parse` succeeds, the returned AST (the
root and every descendant) contains no stack-sentinel variant: neither
`LeftParen` nor `VerticalBar` ever appears in a returned tree. -/
theorem parse_no_sentinel (cs : List Char) (r : Regexp)
    (h : parseChars cs = .ok r) : r.sentinelFree = true := by
  have hmain := parse_pred (fun x => x.is_marker || x.sentinelFree)
    (by simp [Regexp.is_marker, Regexp.sentinelFree])
    (fun c => by simp [Regexp.is_marker, Regexp.sentinelFree])
    ?_ ?_ ?_ ?_ ?_ ?_
    (fun i _ => by simp [Regexp.is_marker])
    (by simp [Regexp.is_marker])
    cs r h
  · rcases hmain with ⟨hor, hnm⟩
    rcases Bool.or_eq_true_iff.mp hor with hm | hsf
    · rw [hnm] at hm; cases hm
    · exact hsf
  · intro subs hlen hmem
    simp only [Regexp.is_marker, Regexp.sentinelFree, Bool.false_or]
    refine (sfList_iff subs).mpr fun x hx => ?_
    obtain ⟨hxm, hxor⟩ := hmem x hx
    rcases Bool.or_eq_true_iff.mp hxor with hm | hsf
    · rw [hxm] at hm; cases hm
    · exact hsf
  · intro subs hlen hmem
    simp only [Regexp.is_marker, Regexp.sentinelFree, Bool.false_or]
    refine (sfList_iff subs).mpr fun x hx => ?_
    obtain ⟨hxm, hxor⟩ := hmem x hx
    rcases Bool.or_eq_true_iff.mp hxor with hm | hsf
    · rw [hxm] at hm; cases hm
    · exact hsf
  · intro x hxm hxor
    simp only [Regexp.is_marker, Regexp.sentinelFree, Bool.false_or]
    rcases Bool.or_eq_true_iff.mp hxor with hm | hsf
    · rw [hxm] at hm; cases hm
    · exact hsf
  · intro x hxm hxor
    simp only [Regexp.is_marker, Regexp.sentinelFree, Bool.false_or]
    rcases Bool.or_eq_true_iff.mp hxor with hm | hsf
    · rw [hxm] at hm; cases hm
    · exact hsf
  · intro x hxm hxor
    simp only [Regexp.is_marker, Regexp.sentinelFree, Bool.false_or]
    rcases Bool.or_eq_true_iff.mp hxor with hm | hsf
    · rw [hxm] at hm; cases hm
    · exact hsf
  · intro i x hxm _ hxor
    simp only [Regexp.is_marker, Regexp.sentinelFree, Bool.false_or]
    rcases Bool.or_eq_true_iff.mp hxor with hm | hsf
    · rw [hxm] at hm; cases hm
    · exact hsf

/-- Witness for C6 at the concrete input "(a)". -/
theorem parse_no_sentinel_witness :
    (Regexp.Capture 1 (.Literal 'a')).sentinelFree = true :=
  parse_no_sentinel (String.data "(a)") (Regexp.Capture 1 (.Literal 'a')) rfl

/-- C7: for every input, the zero-collected-operands failure branch of
`alternate` is unreachable: whenever the driver invokes `alternate` the
backward scan collects at least one operand, so the internal fatal
assertion (the Rust `fail`) never fires and `parse` never reaches the
fatal outcome. -/
theorem parse_never_fatal (cs : List Char) :
    (parseChars cs).notFatal = true := by
  unfold parseChars
  cases hl : runLoop Parser.new cs with
  | ok p =>
    show (finalize p).notFatal = true
    obtain ⟨q, re, rest, hcol, hq, hre⟩ := Parser.collapse_some p
    have hfin : finalize p = (match q.stack with
        | [re] => Outcome.ok re
        | _ => Outcome.err Error.MissingParen) := by
      unfold finalize
      rw [hcol]
    rw [hfin, hq]
    cases rest with
    | nil => rfl
    | cons b rest2 => rfl
  | err e => rfl
  | fatal => exact (runLoop_not_fatal cs Parser.new hl).elim

/-- Witness for C7 at the concrete input "(". -/
theorem parse_never_fatal_witness :
    (parseChars [Char.ofNat 40]).notFatal = true :=
  parse_never_fatal [Char.ofNat 40]

/-- C9: parsing the empty string succeeds and returns the `Empty` node,
produced by the end-of-input finalization collapsing zero operands. -/
theorem parse_empty_eq : parse "" = .ok .Empty := rfl

/-- C10: degenerate alternations with empty branches parse successfully
via the collapse rules rather than erroring: "(|)" gives a capture of a
two-branch `Empty` alternation, and "||" gives a flat three-branch
`Empty` alternation. -/
theorem parse_degenerate_alternation :
    parse "(|)" = .ok (.Capture 1 (.Alternate [.Empty, .Empty])) ∧
    parse "||" = .ok (.Alternate [.Empty, .Empty, .Empty]) :=
  ⟨rfl, rfl⟩

/-- C8: repeat operators nest without flattening or rejection:
`parse "a**"` returns `Star (Star (Literal 'a'))`, and in general a
repeat operator applied to any non-marker top of stack (in particular an
already-wrapped repetition node) wraps it again. -/
theorem parse_nested_repeat :
    parse "a**" = .ok (.Star (.Star (.Literal 'a'))) ∧
    ∀ (st : List Regexp) (n : Nat) (sub : Regexp), sub.is_marker = false →
      step ⟨sub :: st, n⟩ '*' = .ok ⟨.Star sub :: st, n⟩ := by
  refine ⟨rfl, ?_⟩
  intro st n sub hm
  have hs : step ⟨sub :: st, n⟩ '*' =
      (if sub.is_marker then Outcome.err .RepeatArgument
        else Outcome.ok ⟨(if ('*' : Char) = '*' then Regexp.Star sub
                          else if ('*' : Char) = '+' then Regexp.Plus sub
                          else Regexp.Quest sub) :: st, n⟩) := by
    rw [step_repeat_eq ⟨sub :: st, n⟩ '*' (Or.inl rfl)]
  rw [hs, if_neg (by simp [hm])]
  rfl

/-- Witness for C8: starring an already-starred node wraps it again. -/
theorem parse_nested_repeat_witness :
    step ⟨[Regexp.Star (.Literal 'a')], 0⟩ '*' =
      .ok ⟨[Regexp.Star (.Star (.Literal 'a'))], 0⟩ :=
  parse_nested_repeat.2 [] 0 (Regexp.Star (.Literal 'a')) rfl

/-- C2: capture indices are positive, 1-based, and assigned strictly in
left-to-right order of the opening parenthesis: the example tree for
"((a)(b))", the fact that each `(` pushes `LeftParen (ncap + 1)` and
increments the counter, the fact that the counter advances by exactly
the number of `(` consumed, and positivity of every index in a returned
AST. -/
theorem parse_capture_index_order :
    parse "((a)(b))" = .ok (.Capture 1 (.Concat [.Capture 2 (.Literal 'a'),
      .Capture 3 (.Literal 'b')])) ∧
    (∀ p, step p '(' = .ok ⟨.LeftParen (p.ncap + 1) :: p.stack, p.ncap + 1⟩) ∧
    (∀ cs p q, runLoop p cs = .ok q → q.ncap = p.ncap + cs.count '(') ∧
    (∀ cs r, parseChars cs = .ok r → r.capsPos = true) := by
  refine ⟨rfl, step_open, fun cs p q h => runLoop_ncap cs p q h, ?_⟩
  intro cs r h
  refine (parse_pred Regexp.capsPos (by simp [Regexp.capsPos])
    (fun c => by simp [Regexp.capsPos]) ?_ ?_ ?_ ?_ ?_ ?_
    (fun i hi => by simp [Regexp.capsPos]; exact hi)
    (by simp [Regexp.capsPos]) cs r h).1
  · intro subs hlen hmem
    simp only [Regexp.capsPos]
    exact (cpList_iff subs).mpr fun x hx => (hmem x hx).2
  · intro subs hlen hmem
    simp only [Regexp.capsPos]
    exact (cpList_iff subs).mpr fun x hx => (hmem x hx).2
  · intro x _ hx; simpa [Regexp.capsPos] using hx
  · intro x _ hx; simpa [Regexp.capsPos] using hx
  · intro x _ hx; simpa [Regexp.capsPos] using hx
  · intro i x _ hlp hx
    simp only [Regexp.capsPos, Bool.and_eq_true, decide_eq_true_eq]
    refine ⟨?_, hx⟩
    simpa [Regexp.capsPos] using hlp

/-- Witness for C2 at the concrete input "(a)". -/
theorem parse_capture_index_order_witness :
    (Regexp.Capture 1 (.Literal 'a')).capsPos = true :=
  parse_capture_index_order.2.2.2 (String.data "(a)")
    (Regexp.Capture 1 (.Literal 'a')) rfl

/-- C3: the parser yields `RepeatArgument` exactly when a repeat operator
is read with an empty stack or with a marker on top: the two concrete
examples, the fact that finalization never produces `RepeatArgument`, and
the step-level characterization in both directions. -/
theorem parse_repeat_argument_iff :
    parse "*" = .err .RepeatArgument ∧ parse "|*" = .err .RepeatArgument ∧
    (∀ p, finalize p = .err .RepeatArgument → False) ∧
    (∀ p c, step p c = .err .RepeatArgument ↔
      ((c = '*' ∨ c = '+' ∨ c = '?') ∧
        (p.stack = [] ∨ ∃ sub rest, p.stack = sub :: rest ∧
          sub.is_marker = true))) := by
  refine ⟨rfl, rfl, ?_, ?_⟩
  · intro p h
    obtain ⟨q, re, rest, hcol, hq, hre⟩ := Parser.collapse_some p
    have hfin : finalize p = (match q.stack with
        | [re] => Outcome.ok re
        | _ => Outcome.err Error.MissingParen) := by
      unfold finalize
      rw [hcol]
    rw [hfin, hq] at h
    cases rest with
    | nil => cases h
    | cons b rest2 => cases h
  · intro p c
    constructor
    · intro h
      by_cases hc1 : c = '('
      · subst hc1; rw [step_open] at h; cases h
      by_cases hc2 : c = '|'
      · subst hc2
        rw [step_bar_eq] at h
        rcases hsw : p.concat.swap_vertical_bar with ⟨b, q2⟩
        rw [hsw] at h
        cases b <;> cases h
      by_cases hc3 : c = ')'
      · subst hc3
        obtain ⟨q, re, rest, hcol, hq, hre⟩ := Parser.collapse_some p
        have hs : step p ')' = (match q.stack with
            | sub :: paren :: rest2 =>
              match paren with
              | Regexp.LeftParen cap =>
                Outcome.ok ⟨Regexp.Capture cap sub :: rest2, q.ncap⟩
              | _ => Outcome.err Error.MissingParen
            | _ => Outcome.err Error.MissingParen) := by
          rw [step_close_eq, hcol]
        rw [hq] at hs
        rw [hs] at h
        cases rest with
        | nil => cases h
        | cons paren rest2 => cases paren <;> cases h
      by_cases hc4 : c = '*' ∨ c = '+' ∨ c = '?'
      · refine ⟨hc4, ?_⟩
        cases hst : p.stack with
        | nil => exact Or.inl rfl
        | cons sub rest =>
          have hs : step p c =
              (if sub.is_marker then Outcome.err .RepeatArgument
                else Outcome.ok ⟨(if c = '*' then Regexp.Star sub
                                  else if c = '+' then Regexp.Plus sub
                                  else Regexp.Quest sub) :: rest, p.ncap⟩) := by
            rw [step_repeat_eq p c hc4, hst]
          rw [hs] at h
          by_cases hm : sub.is_marker = true
          · exact Or.inr ⟨sub, rest, rfl, hm⟩
          · rw [if_neg hm] at h; cases h
      · have hs : step p c = .ok ⟨.Literal c :: p.stack, p.ncap⟩ := by
          apply step_literal
          simp only [special, Bool.or_eq_false_iff, beq_eq_false_iff_ne, ne_eq]
          tauto
        rw [hs] at h; cases h
    · rintro ⟨hc4, hstk⟩
      rcases hstk with hnil | ⟨sub, rest, hst, hm⟩
      · rw [step_repeat_eq p c hc4, hnil]
      · have hs : step p c =
            (if sub.is_marker then Outcome.err .RepeatArgument
              else Outcome.ok ⟨(if c = '*' then Regexp.Star sub
                                else if c = '+' then Regexp.Plus sub
                                else Regexp.Quest sub) :: rest, p.ncap⟩) := by
          rw [step_repeat_eq p c hc4, hst]
        rw [hs, if_pos hm]

/-- Witness for C3: a star on an empty stack errs with
`RepeatArgument`. -/
theorem parse_repeat_argument_iff_witness :
    step ⟨[], 0⟩ '*' = .err .RepeatArgument :=
  (parse_repeat_argument_iff.2.2.2 ⟨[], 0⟩ '*').mpr ⟨Or.inl rfl, Or.inl rfl⟩

/-- C4: the parser yields `MissingParen` when a `)` is read with no open
group on the stack (the two concrete examples and the step-level fact for
a stack holding no `LeftParen`), and when the input ends with a collapsed
stack depth different from 1. -/
theorem parse_missing_paren :
    parse "(" = .err .MissingParen ∧ parse ")" = .err .MissingParen ∧
    (∀ p, (∀ r ∈ p.stack, r.is_left_paren = false) →
      step p ')' = .err .MissingParen) ∧
    (∀ p q, p.collapse = some q → q.stack.length ≠ 1 →
      finalize p = .err .MissingParen) := by
  refine ⟨rfl, rfl, ?_, ?_⟩
  · intro p hnp
    obtain ⟨q, re, rest, hcol, hq, hre⟩ := Parser.collapse_some p
    have hqnp : ∀ x ∈ q.stack, (!x.is_left_paren) = true :=
      Parser.collapse_pres (fun x => !x.is_left_paren) rfl
        (fun subs _ _ => rfl) (fun subs _ _ => rfl) p q
        (fun x hx => by simp [hnp x hx]) hcol
    have hs : step p ')' = (match q.stack with
        | sub :: paren :: rest2 =>
          match paren with
          | Regexp.LeftParen cap =>
            Outcome.ok ⟨Regexp.Capture cap sub :: rest2, q.ncap⟩
          | _ => Outcome.err Error.MissingParen
        | _ => Outcome.err Error.MissingParen) := by
      rw [step_close_eq, hcol]
    rw [hq] at hs
    cases rest with
    | nil => rw [hs]
    | cons paren rest2 =>
      have hpnp : (!paren.is_left_paren) = true := hqnp paren (by rw [hq]; simp)
      rw [hs]
      cases paren
      case LeftParen i => simp [Regexp.is_left_paren] at hpnp
      all_goals rfl
  · intro p q hcol hlen
    have hfin : finalize p = (match q.stack with
        | [re] => Outcome.ok re
        | _ => Outcome.err Error.MissingParen) := by
      unfold finalize
      rw [hcol]
    rw [hfin]
    cases hq : q.stack with
    | nil => rfl
    | cons a t =>
      cases t with
      | nil =>
        exfalso
        apply hlen
        rw [hq]
        rfl
      | cons b t2 => rfl

/-- Witness for C4: a close paren on an empty stack errs with
`MissingParen`. -/
theorem parse_missing_paren_witness :
    step ⟨[], 0⟩ ')' = .err .MissingParen :=
  parse_missing_paren.2.2.1 ⟨[], 0⟩ (fun r hr => absurd hr (List.not_mem_nil r))

/-- When a step succeeds, the loop on a cons input continues from the
stepped state. -/
theorem runLoop_cons_ok (p q : Parser) (c : Char) (cs : List Char)
    (h : step p c = .ok q) : runLoop p (c :: cs) = runLoop q cs := by
  show (match step p c with
    | .ok q => runLoop q cs
    | .err e => Outcome.err e
    | .fatal => Outcome.fatal) = runLoop q cs
  rw [h]

/-- `concat` with a literal atop a bar collapses the single-operand
concatenation to the operand itself, leaving the stack unchanged. -/
theorem concat_cons_bar (d : Char) (acc : List Regexp) (n : Nat) :
    Parser.concat ⟨.Literal d :: .VerticalBar :: acc, n⟩ =
      ⟨.Literal d :: .VerticalBar :: acc, n⟩ := rfl

/-- A bar read with a single literal on the stack pushes a fresh
`VerticalBar` sentinel. -/
theorem step_bar_first (d : Char) (n : Nat) :
    step ⟨[.Literal d], n⟩ '|' = .ok ⟨[.VerticalBar, .Literal d], n⟩ := rfl

/-- A bar read with a literal atop an existing bar re-floats the bar to
the top of the stack. -/
theorem step_bar_after_literal (d : Char) (acc : List Regexp) (n : Nat) :
    step ⟨.Literal d :: .VerticalBar :: acc, n⟩ '|' =
      .ok ⟨.VerticalBar :: .Literal d :: acc, n⟩ := rfl

/-- The backward scan of an all-non-marker stack collects everything. -/
theorem takeWhile_all_not_marker (l : List Regexp)
    (h : ∀ x ∈ l, x.is_marker = false) :
    l.takeWhile (fun r => !r.is_marker) = l := by
  induction l with
  | nil => rfl
  | cons a t ih =>
    rw [List.takeWhile_cons]
    rw [h a (List.mem_cons_self a t)]
    simp only [Bool.not_false, if_true]
    rw [ih fun x hx => h x (List.mem_cons_of_mem a hx)]

/-- The backward scan of an all-non-marker stack leaves nothing. -/
theorem dropWhile_all_not_marker (l : List Regexp)
    (h : ∀ x ∈ l, x.is_marker = false) :
    l.dropWhile (fun r => !r.is_marker) = [] := by
  induction l with
  | nil => rfl
  | cons a t ih =>
    rw [List.dropWhile_cons]
    rw [h a (List.mem_cons_self a t)]
    simp only [Bool.not_false, if_true]
    exact ih fun x hx => h x (List.mem_cons_of_mem a hx)

/-- `alternate` on a stack of at least two non-marker entries collects
them all into one flat `Alternate` in original (bottom-to-top) order. -/
theorem Parser.alternate_all (p : Parser)
    (hall : ∀ x ∈ p.stack, x.is_marker = false)
    (hlen : 2 ≤ p.stack.length) :
    p.alternate = some ⟨[.Alternate p.stack.reverse], p.ncap⟩ := by
  simp only [Parser.alternate]
  rw [takeWhile_all_not_marker p.stack hall, dropWhile_all_not_marker p.stack hall]
  cases hsr : p.stack.reverse with
  | nil =>
    exfalso
    have h0 : p.stack = [] := List.reverse_eq_nil_iff.mp hsr
    rw [h0] at hlen
    exact absurd hlen (by decide)
  | cons a t =>
    cases t with
    | nil =>
      exfalso
      have : p.stack.length = 1 := by
        have := congrArg List.length hsr
        simpa using this
      omega
    | cons b t2 => rfl

/-- Invariant of the alternation chain: processing `|e1|e2...` from a
state with a literal atop the single live bar accumulates every branch
below the bar, keeping the latest branch on top. -/
theorem runLoop_bar_chain (cs : List Char) :
    ∀ (d : Char) (acc : List Regexp) (n : Nat),
      (∀ e ∈ cs, special e = false) →
      runLoop ⟨.Literal d :: .VerticalBar :: acc, n⟩ (barsText cs) =
        runLoop ⟨.Literal (cs.getLastD d) :: .VerticalBar ::
          (((d :: cs).dropLast.map Regexp.Literal).reverse ++ acc), n⟩ [] := by
  induction cs with
  | nil => intro d acc n hcs; rfl
  | cons e cs2 ih =>
    intro d acc n hcs
    have he : special e = false := hcs e (List.mem_cons_self e cs2)
    have hcs2 : ∀ x ∈ cs2, special x = false :=
      fun x hx => hcs x (List.mem_cons_of_mem e hx)
    have h0 : barsText (e :: cs2) = '|' :: e :: barsText cs2 := rfl
    rw [h0,
      runLoop_cons_ok _ _ '|' _ (step_bar_after_literal d acc n),
      runLoop_cons_ok _ _ e _
        (step_literal ⟨.VerticalBar :: .Literal d :: acc, n⟩ e he),
      ih e (.Literal d :: acc) n hcs2,
      List.getLastD_cons]
    have h1 : (d :: e :: cs2).dropLast = d :: (e :: cs2).dropLast := rfl
    rw [h1, List.map_cons, List.reverse_cons, List.append_assoc,
      List.singleton_append]

/-- The literals below the bar, read back in original order and closed
with the last branch, are exactly the original operand list. -/
theorem dropLast_getLastD_map (cs : List Char) :
    ∀ e : Char, ((e :: cs).dropLast.map Regexp.Literal) ++
      [Regexp.Literal (cs.getLastD e)] = (e :: cs).map Regexp.Literal := by
  induction cs with
  | nil => intro e; rfl
  | cons f cs2 ih =>
    intro e
    have h1 : (e :: f :: cs2).dropLast = e :: (f :: cs2).dropLast := rfl
    rw [h1, List.map_cons, List.cons_append, List.getLastD_cons, ih f,
      List.map_cons]
    rfl

/-- Finalizing a state with the last branch atop the bar atop the other
non-marker branches pops the bar and produces one flat `Alternate` of all
branches in original order. -/
theorem finalize_bar_state (L c : Char) (M : List Regexp) (n : Nat)
    (hM : ∀ x ∈ M, x.is_marker = false) :
    finalize ⟨.Literal L :: .VerticalBar :: (M ++ [Regexp.Literal c]), n⟩ =
      .ok (.Alternate ((Regexp.Literal L :: (M ++ [Regexp.Literal c])).reverse)) := by
  have hall : ∀ x ∈ (Regexp.Literal L :: (M ++ [Regexp.Literal c])),
      x.is_marker = false := by
    intro x hx
    rcases List.mem_cons.mp hx with h1 | h2
    · subst h1; rfl
    rcases List.mem_append.mp h2 with h3 | h4
    · exact hM x h3
    · rw [List.mem_singleton.mp h4]; rfl
  have hcol : Parser.collapse ⟨.Literal L :: .VerticalBar :: (M ++ [Regexp.Literal c]), n⟩ =
      Parser.alternate ⟨.Literal L :: (M ++ [Regexp.Literal c]), n⟩ := rfl
  have hlen : 2 ≤ (Regexp.Literal L :: (M ++ [Regexp.Literal c])).length := by
    simp [List.length_cons, List.length_append]
  have halt := Parser.alternate_all ⟨.Literal L :: (M ++ [Regexp.Literal c]), n⟩
    hall hlen
  unfold finalize
  rw [hcol, halt]

/-- C1: a pattern of single-character operands separated by a chain of
one or more bars at top level parses to a single flat `Alternate` whose
branches are all the operands in original left-to-right order — never a
nested pairwise tree; "a|b|c" is the instance with three branches. -/
theorem parse_bar_chain_flat (c : Char) (cs : List Char)
    (hc : special c = false) (hcs : ∀ e ∈ cs, special e = false)
    (hne : cs ≠ []) :
    parseChars (c :: barsText cs) =
      .ok (.Alternate ((c :: cs).map Regexp.Literal)) := by
  cases cs with
  | nil => exact absurd rfl hne
  | cons e cs2 =>
    have he : special e = false := hcs e (List.mem_cons_self e cs2)
    have hcs2 : ∀ x ∈ cs2, special x = false :=
      fun x hx => hcs x (List.mem_cons_of_mem e hx)
    have h1 : runLoop Parser.new (c :: barsText (e :: cs2)) =
        runLoop ⟨[.Literal c], 0⟩ (barsText (e :: cs2)) :=
      runLoop_cons_ok _ _ c _ (step_literal Parser.new c hc)
    have h2 : runLoop ⟨[.Literal c], 0⟩ (barsText (e :: cs2)) =
        runLoop ⟨[.VerticalBar, .Literal c], 0⟩ (e :: barsText cs2) := by
      have h0 : barsText (e :: cs2) = '|' :: e :: barsText cs2 := rfl
      rw [h0]
      exact runLoop_cons_ok _ _ '|' _ (step_bar_first c 0)
    have h3 : runLoop ⟨[.VerticalBar, .Literal c], 0⟩ (e :: barsText cs2) =
        runLoop ⟨[.Literal e, .VerticalBar, .Literal c], 0⟩ (barsText cs2) :=
      runLoop_cons_ok _ _ e _
        (step_literal ⟨[.VerticalBar, .Literal c], 0⟩ e he)
    have h4 := runLoop_bar_chain cs2 e [.Literal c] 0 hcs2
    have hM : ∀ x ∈ (((e :: cs2).dropLast.map Regexp.Literal).reverse),
        x.is_marker = false := by
      intro x hx
      obtain ⟨d, hd, hdx⟩ := List.mem_map.mp (List.mem_reverse.mp hx)
      rw [← hdx]
      rfl
    have hfin := finalize_bar_state (cs2.getLastD e) c
      (((e :: cs2).dropLast.map Regexp.Literal).reverse) 0 hM
    unfold parseChars
    rw [h1, h2, h3, h4]
    show finalize ⟨.Literal (cs2.getLastD e) :: .VerticalBar ::
      ((((e :: cs2).dropLast.map Regexp.Literal).reverse) ++
        [Regexp.Literal c]), 0⟩ = _
    rw [hfin]
    congr 2
    simp only [List.reverse_cons, List.reverse_append, List.reverse_reverse,
      List.reverse_nil, List.nil_append, List.singleton_append,
      List.append_assoc, List.cons_append, List.map_cons, List.cons.injEq,
      true_and]
    exact dropLast_getLastD_map cs2 e

/-- Witness for C1 at the concrete pattern "a|b|c". -/
theorem parse_bar_chain_flat_witness :
    parseChars ('a' :: barsText ['b', 'c']) =
      .ok (.Alternate (['a', 'b', 'c'].map Regexp.Literal)) :=
  parse_bar_chain_flat 'a' ['b', 'c'] (by decide) (by decide) (by decide)
